import Mathlib

/-!
Verification development for the WATTx mining subsystem: a shallow
embedding of the stratum job server (`src/stratum/stratum_server.cpp`),
the RandomX miner wrapper (`node/randomx_miner.cpp`), the gapcoin sieve
miner (`node/gapcoin_miner.cpp`) and the gapcoin proof-of-work helpers
(`consensus/gapcoin_pow.cpp`), together with theorems about the
behaviour of those functions.

C++ `std::string` values are embedded as `List Char` (byte strings; all
protocol strings in play are ASCII, so character order coincides with
byte order).  Machine integers are embedded as `Nat` with explicit
`% 2^w` where wrap-around matters.  External effects (RandomX hashing,
block submission to the node, memory allocation) are passed in as
explicit function/Bool parameters.
-/

/-- Byte strings: the embedding of C++ `std::string`. -/
abbrev CStr := List Char

/-- Lexicographic strict comparison of two byte strings, the order used
by `std::map<std::string, ...>` (`std::less<std::string>`, which
compares character by character and then by length). -/
def ltCharList : CStr → CStr → Bool
  | [], [] => false
  | [], _ :: _ => true
  | _ :: _, [] => false
  | a :: as, b :: bs =>
    if a.toNat < b.toNat then true
    else if b.toNat < a.toNat then false
    else ltCharList as bs

/-- Value of one hexadecimal digit, `none` for a non-hex character
(mirrors the per-character table lookup of `util/strencodings`). -/
def hexDigitVal (c : Char) : Option ℕ :=
  if '0' ≤ c ∧ c ≤ '9' then some (c.toNat - '0'.toNat)
  else if 'a' ≤ c ∧ c ≤ 'f' then some (c.toNat - 'a'.toNat + 10)
  else if 'A' ≤ c ∧ c ≤ 'F' then some (c.toNat - 'A'.toNat + 10)
  else none

/-- Modelled from the spec: `ParseHex` (in `util/strencodings`, outside
`src/`) turns a hex string into bytes two characters at a time and stops
at the first character that is not a hex digit ("Parse `nonce` as 4 hex
bytes"). -/
def ParseHex : CStr → List ℕ
  | c1 :: c2 :: rest =>
    match hexDigitVal c1, hexDigitVal c2 with
    | some hi, some lo => (16 * hi + lo) :: ParseHex rest
    | _, _ => []
  | _ => []

/-- Nonce decoding in `StratumServer::ValidateAndSubmitShare`
(`stratum_server.cpp:718-727`): `nonce` starts at 0; only when the hex
string has exactly 8 characters and parses to exactly 4 bytes are the
bytes combined little-endian. -/
def nonceOfHex (s : CStr) : ℕ :=
  if s.length = 8 then
    let bs := ParseHex s
    if bs.length = 4 then
      bs.getD 0 0 + bs.getD 1 0 * 2 ^ 8 + bs.getD 2 0 * 2 ^ 16 + bs.getD 3 0 * 2 ^ 24
    else 0
  else 0

/-- The property "the nonce string parses as exactly 4 hex-encoded
bytes": 8 characters, all of them valid hex digits. -/
def ParsesAsFourHexBytes (s : CStr) : Prop :=
  s.length = 8 ∧ (ParseHex s).length = 4

instance (s : CStr) : Decidable (ParsesAsFourHexBytes s) := by
  unfold ParsesAsFourHexBytes; infer_instance

/-- Modelled from the spec: compact-target decoding
(`arith_uint256::SetCompact`, outside `src/`), per the formula recorded
at `stratum_server.cpp:624-625`: "nBits format: `0xNNXXXXXX` where `NN`
is exponent, `XXXXXX` is mantissa; `target = mantissa *
2^(8*(exponent-3))`".  For an exponent below 3 the mantissa is shifted
down instead. -/
def SetCompact (nBits : ℕ) : ℕ :=
  let exponent := nBits / 2 ^ 24
  let mantissa := nBits % 2 ^ 24
  if exponent ≤ 3 then mantissa / 2 ^ (8 * (3 - exponent))
  else mantissa * 2 ^ (8 * (exponent - 3))

/-- A stratum job as stored in `m_jobs` (`StratumJob` in
`stratum_server.h`): only the fields the theorems touch are kept.
`hasTemplate` embeds the `block_template` shared pointer being non-null
(`CreateNewJob` always stores a live template). -/
structure StratumJob where
  jobId : CStr
  bits : ℕ
  height : ℕ
  blob : List ℕ
  hasTemplate : Bool
deriving Repr, DecidableEq

/-- The 76-byte mining blob built by `StratumServer::CreateNewJob`
(`stratum_server.cpp:585-610`): 32 bytes of `hashPrevBlock`, three
low-order little-endian bytes of `nVersion`, four little-endian bytes of
`nTime`, a zeroed 4-byte nonce slot, 32 bytes of `hashMerkleRoot`, and
the low byte of `nBits`.  The two `memcpy` calls copy exactly 32 bytes,
hence the `take 32`. -/
def MiningBlob (prevHash merkle : List ℕ) (version time bits : ℕ) : List ℕ :=
  prevHash.take 32
    ++ [version % 2 ^ 8, version / 2 ^ 8 % 2 ^ 8, version / 2 ^ 16 % 2 ^ 8]
    ++ [time % 2 ^ 8, time / 2 ^ 8 % 2 ^ 8, time / 2 ^ 16 % 2 ^ 8, time / 2 ^ 24 % 2 ^ 8]
    ++ [0, 0, 0, 0]
    ++ merkle.take 32
    ++ [bits % 2 ^ 8]

/-- Hexadecimal rendering of a number, lowercase and without padding,
as `std::ostringstream << std::hex` produces it. -/
def natToHex (n : ℕ) : CStr := Nat.toDigits 16 n

/-- Job-id generation (`StratumServer::GenerateJobId`,
`stratum_server.cpp:837-842`): hex of the current unix time followed by
the post-increment job counter padded to (at least) 8 hex digits
(`std::setfill('0') << std::setw(8)`). -/
def GenerateJobId (time counter : ℕ) : CStr :=
  let c := natToHex counter
  natToHex time ++ (List.replicate (8 - c.length) '0' ++ c)

/-- Block-template fields consumed by `CreateNewJob`; the template is
produced by the external `interfaces::Mining` provider. -/
structure BlockTmpl where
  version : ℕ
  prevHash : List ℕ
  merkleRoot : List ℕ
  time : ℕ
  bits : ℕ
  tipHeight : ℕ
deriving Repr, DecidableEq

/-- The job-map part of the server state: `m_jobs` (a
`std::map<std::string, StratumJob>`, embedded as an association list),
`m_current_job` and `m_job_counter`. -/
structure JobsState where
  jobs : List (CStr × StratumJob)
  currentJob : Option StratumJob
  jobCounter : ℕ
deriving Repr, DecidableEq

/-- The empty job map at server start. -/
def initJobsState : JobsState := { jobs := [], currentJob := none, jobCounter := 0 }

/-- Smallest key of the association list: what `m_jobs.begin()` points
at in the `std::map` (ordered by `std::less<std::string>`). -/
def minKey (l : List (CStr × StratumJob)) : Option CStr :=
  l.foldl
    (fun acc kv =>
      match acc with
      | none => some kv.1
      | some m => if ltCharList kv.1 m then some kv.1 else some m)
    none

/-- Removal of the entry `m_jobs.begin()` points at: the entry holding
the smallest key. -/
def eraseMin (l : List (CStr × StratumJob)) : List (CStr × StratumJob) :=
  match minKey l with
  | none => l
  | some m => l.eraseP (fun kv => kv.1 == m)

/-- Insertion `m_jobs[job.job_id] = job`: replaces the entry when the
key is already present, appends otherwise. -/
def mapInsert (k : CStr) (v : StratumJob) : List (CStr × StratumJob) → List (CStr × StratumJob)
  | [] => [(k, v)]
  | (k', v') :: rest =>
    if k = k' then (k, v) :: rest else (k', v') :: mapInsert k v rest

/-- The `StratumJob` record `CreateNewJob` fills from the block
template: consensus bits, height = tip + 1, the 76-byte blob, and a
live template handle. -/
def jobOfTemplate (jid : CStr) (tmpl : BlockTmpl) : StratumJob :=
  { jobId := jid
    bits := tmpl.bits
    height := tmpl.tipHeight + 1
    blob := MiningBlob tmpl.prevHash tmpl.merkleRoot tmpl.version tmpl.time tmpl.bits
    hasTemplate := true }

/-- `StratumServer::CreateNewJob` (`stratum_server.cpp:547-673`),
restricted to its job-map effect: build the job, store it under its id,
make it the current job, and if the map then holds more than 10 entries
erase `m_jobs.begin()`. -/
def CreateNewJob (st : JobsState) (now : ℕ) (tmpl : BlockTmpl) : JobsState :=
  let jid := GenerateJobId now st.jobCounter
  let job := jobOfTemplate jid tmpl
  let jobs' := mapInsert jid job st.jobs
  { jobs := if 10 < jobs'.length then eraseMin jobs' else jobs'
    currentJob := some job
    jobCounter := st.jobCounter + 1 }

/-- Per-client connection state (`StratumClient` in
`stratum_server.h`): the fields the claims are about. -/
structure ClientConn where
  subscribed : Bool
  authorized : Bool
  walletAddress : CStr
  workerName : CStr
  sharesAccepted : ℕ
  sharesRejected : ℕ
deriving Repr, DecidableEq

/-- A freshly accepted client (`AcceptThread`): both flags down, no
shares. -/
def initClient : ClientConn :=
  { subscribed := false, authorized := false, walletAddress := [], workerName := []
    sharesAccepted := 0, sharesRejected := 0 }

/-- `StratumServer::ValidateAndSubmitShare`
(`stratum_server.cpp:699-795`).  External collaborators appear as
parameters: `initOk` is whether the lazy RandomX initialization is (or
becomes) available, `hashFn nonce` is the RandomX hash of the fully
serialized canonical header rebuilt from the job's template with that
nonce, and `submitOk` is the verdict of
`block_template->submitSolution`.  Returns `true` exactly when the
share is accepted. -/
def ValidateAndSubmitShare (jobs : List (CStr × StratumJob)) (jobId nonceHex : CStr)
    (initOk : Bool) (hashFn : ℕ → ℕ) (submitOk : Bool) : Bool :=
  match jobs.lookup jobId with
  | none => false
  | some job =>
    if !job.hasTemplate then false
    else if !initOk then false
    else
      let nonce := nonceOfHex nonceHex
      let hash := hashFn nonce
      let target := SetCompact job.bits
      if target < hash then false
      else submitOk

/-- Submit field extraction in `StratumServer::HandleSubmit`
(`stratum_server.cpp:497-515`): a positional params array of length at
least 5 yields `params[1]` (job id) and `params[4]` (nonce); any other
shape that does not carry a parsable JSON object (the XMRig path is fed
through the same two extracted values) leaves both fields empty. -/
def extractSubmitFields (params : List CStr) : CStr × CStr :=
  if 5 ≤ params.length then (params.getD 1 [], params.getD 4 [])
  else ([], [])

/-- JSON-RPC reply of a submit: `{"result":{"status":"OK"}}` or an
error tuple `[code, message, null]`. -/
inductive SubmitResp where
  | ok : SubmitResp
  | err : ℕ → SubmitResp
deriving Repr, DecidableEq

/-- Core of `StratumServer::HandleSubmit` (`stratum_server.cpp:517-545`)
after field extraction: an empty job id or nonce is answered with error
20 and no counter moves; otherwise the share is validated and exactly
one of `shares_accepted` / `shares_rejected` is incremented, rejections
being answered with error 23 ("Invalid share"). -/
def HandleSubmitFields (client : ClientConn) (jobs : List (CStr × StratumJob))
    (jobId nonceHex : CStr) (initOk : Bool) (hashFn : ℕ → ℕ) (submitOk : Bool) :
    ClientConn × SubmitResp :=
  if jobId = [] ∨ nonceHex = [] then (client, .err 20)
  else if ValidateAndSubmitShare jobs jobId nonceHex initOk hashFn submitOk then
    ({ client with sharesAccepted := client.sharesAccepted + 1 }, .ok)
  else
    ({ client with sharesRejected := client.sharesRejected + 1 }, .err 23)

/-- One `HandleSubmit` call with its external inputs: the raw params,
the job map in force, and the oracles of the validation path. -/
structure SubmitCall where
  params : List CStr
  jobs : List (CStr × StratumJob)
  initOk : Bool
  hashFn : ℕ → ℕ
  submitOk : Bool

/-- `StratumServer::HandleSubmit` on one call. -/
def HandleSubmit (client : ClientConn) (c : SubmitCall) : ClientConn × SubmitResp :=
  let (jobId, nonceHex) := extractSubmitFields c.params
  HandleSubmitFields client c.jobs jobId nonceHex c.initOk c.hashFn c.submitOk

/-- A submit call is well-formed when field extraction yields a
non-empty job id and a non-empty nonce (the calls that get past the
error-20 guard). -/
def submitWellFormed (c : SubmitCall) : Bool :=
  let (jobId, nonceHex) := extractSubmitFields c.params
  !(decide (jobId = [])) && !(decide (nonceHex = []))

/-- A sequence of `HandleSubmit` calls processed for one client (the
per-client reader thread dispatches them in order). -/
def runSubmits (client : ClientConn) (calls : List SubmitCall) : ClientConn :=
  calls.foldl (fun c call => (HandleSubmit c call).1) client

/-- Splitting of the `wallet[.worker]` credential in
`StratumServer::HandleAuthorize` (`stratum_server.cpp:389-397`):
everything before the first dot is the wallet, everything after it the
worker name, defaulting to "default". -/
def parseWorker (worker : CStr) : CStr × CStr :=
  match worker.findIdx? (· = '.') with
  | none => (worker, "default".data)
  | some i => (worker.take i, worker.drop (i + 1))

/-- The client-state effect of the message handlers that touch the
per-client flags: `mining.subscribe`, `mining.authorize`, and the
XMRig-style `login`/`getjob` (`HandleSubscribe`, `HandleAuthorize`,
`HandleGetJob`), plus `mining.submit`. -/
inductive ClientOp where
  | subscribe : ClientOp
  | authorize : CStr → ClientOp
  | login : CStr → ClientOp
  | submit : SubmitCall → ClientOp

/-- One handler dispatch, restricted to its effect on the client record:
`HandleSubscribe` (`stratum_server.cpp:364-383`) raises `subscribed`;
`HandleAuthorize` (`stratum_server.cpp:385-422`) raises `authorized` and
stores the credentials — and nothing else; `HandleGetJob`
(`stratum_server.cpp:424-491`) raises both flags; `HandleSubmit` moves
the share counters. -/
def applyClientOp (c : ClientConn) : ClientOp → ClientConn
  | .subscribe => { c with subscribed := true }
  | .authorize worker =>
    let (wallet, name) := parseWorker worker
    { c with authorized := true, walletAddress := wallet, workerName := name }
  | .login login =>
    { c with subscribed := true, authorized := true
             walletAddress := login, workerName := "xmrig".data }
  | .submit call => (HandleSubmit c call).1

/-- A client state reached from a fresh connection by a sequence of
handled messages. -/
def runClientOps (c : ClientConn) (ops : List ClientOp) : ClientConn :=
  ops.foldl applyClientOp c

/-- State of the `RandomXMiner` singleton that
`ReinitializeIfNeeded`/`Initialize` read and write: the cached key
(`m_currentKey`, empty at construction) and the `m_initialized` flag. -/
structure RXState where
  currentKey : List ℕ
  initialized : Bool
deriving Repr, DecidableEq

/-- The miner before any initialization. -/
def initRXState : RXState := { currentKey := [], initialized := false }

/-- `RandomXMiner::Initialize` (`randomx_miner.cpp:119-208`), with cache
allocation as the external parameter `allocOk` (covering the retry
without JIT): any existing context is torn down first; on allocation
failure the call returns `false` with the stored key unchanged; on
success the key is stored and the miner marked initialized. -/
def Initialize (st : RXState) (allocOk : Bool) (key : List ℕ) : Bool × RXState :=
  if allocOk then (true, { currentKey := key, initialized := true })
  else (false, { st with initialized := false })

/-- `RandomXMiner::ReinitializeIfNeeded` (`randomx_miner.cpp:210-219`):
compare the stored key with the requested one (length and bytes); on a
match return `true` without rework, otherwise run `Initialize`.  The
third component reports whether reinitialization was performed. -/
def ReinitializeIfNeeded (st : RXState) (allocOk : Bool) (key : List ℕ) :
    Bool × RXState × Bool :=
  if st.currentKey = key then (true, st, false)
  else
    let (ok, st') := Initialize st allocOk key
    (ok, st', true)

/-- Setting one bit of the sieve bitset
(`sieve[j / 8] |= (1 << (j % 8))`), with the bitset embedded as its
bit-read function. -/
def setBit (s : ℕ → Bool) (j : ℕ) : ℕ → Bool :=
  fun i => if i = j then true else s i

/-- The inner marking loop of `GapcoinMiner::SieveSegment`:
`for (j = firstMultiple; j < segmentSize * 8; j += p) set bit j`.
Structural fuel bounds the iteration count; `nBits + 1` steps always
suffice for a positive stride. -/
def markMultiples : ℕ → ℕ → ℕ → (ℕ → Bool) → ℕ → (ℕ → Bool)
  | 0, _, _, s, _ => s
  | fuel + 1, p, nBits, s, j =>
    if j < nBits then markMultiples fuel p nBits (setBit s j) (j + p) else s

/-- `GapcoinMiner::SieveSegment` of the active miner
(`unnamed/part_000:212-222`), on a zeroed bitset of `nBits =
segmentSize * 8` bits: for each of the first 1000 sieving primes `p`,
compute `firstMultiple = (segmentStart / p + 1) * p - segmentStart` and
mark every `p`-th bit from there on (bit set = composite). -/
def SieveSegment (primes : List ℕ) (segmentStart nBits : ℕ) : ℕ → Bool :=
  (primes.take 1000).foldl
    (fun s p =>
      let firstMultiple := (segmentStart / p + 1) * p - segmentStart
      if nBits ≤ firstMultiple then s
      else markMultiples (nBits + 1) p nBits s firstMultiple)
    (fun _ => false)

/-- `CalculatePrimeCandidate` (`gapcoin_pow.cpp`, `unnamed/part_004:133-173`)
after the header hash has been taken: `result = hash * 2^shift + adder`,
bumped by one when even.  `hashVal` and `adder` are the little-endian
values of the 32-byte hash and of `nAdder`. -/
def CalculatePrimeCandidate (hashVal adder shift : ℕ) : ℕ :=
  let r := hashVal * 2 ^ shift + adder
  if r % 2 = 0 then r + 1 else r

/-- Floor of the base-2 logarithm, by structural fuel (the fuel is the
maximal number of halvings). -/
def log2Fuel : ℕ → ℕ → ℕ
  | 0, _ => 0
  | fuel + 1, n => if 2 ≤ n then log2Fuel fuel (n / 2) + 1 else 0

/-- A binary64 value `m * 2^e`, kept exact as mantissa and exponent.
All values arising in the merit round trip are nonnegative normal
numbers, so neither sign, subnormals, infinities nor NaN are needed. -/
abbrev Dyadic := ℕ × ℤ

/-- Floor of `log2 (num / den)` for positive arguments in the range the
merit computations visit (the value is far above `2^-128`). -/
def floorLog2Q (num den : ℕ) : ℤ :=
  (log2Fuel 400 (num * 2 ^ 128 / den) : ℤ) - 128

/-- Correct round-to-nearest, ties-to-even, of the rational `num / den`
to 53 significant bits: the IEEE binary64 rounding every arithmetic
operation of the merit code performs.  Result is exact as a `Dyadic`. -/
def roundB64 (num den : ℕ) : Dyadic :=
  if num = 0 then (0, 0)
  else
    let e : ℤ := floorLog2Q num den - 52
    let scaledNum := if 0 ≤ e then num else num * 2 ^ (-e).toNat
    let scaledDen := if 0 ≤ e then den * 2 ^ e.toNat else den
    let q := scaledNum / scaledDen
    let r := scaledNum % scaledDen
    let m :=
      if 2 * r < scaledDen then q
      else if scaledDen < 2 * r then q + 1
      else if q % 2 = 0 then q else q + 1
    (m, e)

/-- `CompactToMerit` (`gapcoin_pow.cpp`, `unnamed/part_004:367-370`):
`static_cast<double>(nBits) / 1000000.0`.  The int-to-double conversion
is exact below `2^53` and the division is one correctly rounded binary64
operation. -/
def CompactToMerit (nBits : ℕ) : Dyadic :=
  roundB64 nBits 1000000

/-- `MeritToCompact` (`gapcoin_pow.cpp`, `unnamed/part_004:358-362`):
`static_cast<uint32_t>(merit * 1000000.0)` — one correctly rounded
binary64 multiplication followed by truncation toward zero. -/
def MeritToCompact (merit : Dyadic) : ℕ :=
  let num := if 0 ≤ merit.2 then merit.1 * 1000000 * 2 ^ merit.2.toNat else merit.1 * 1000000
  let den := if 0 ≤ merit.2 then 1 else 2 ^ (-merit.2).toNat
  let z := roundB64 num den
  if 0 ≤ z.2 then z.1 * 2 ^ z.2.toNat else z.1 / 2 ^ (-z.2).toNat

/-- A fixed block template used by the concrete scenarios below. -/
def tmpl0 : BlockTmpl :=
  { version := 0x20000000, prevHash := List.replicate 32 1, merkleRoot := List.replicate 32 2
    time := 1000, bits := 0x1d00ffff, tipHeight := 7 }

/-- Eleven job rotations at a fixed clock second, starting from the
empty job map: the stale-share scenario of the spec. -/
def rotatedState : JobsState :=
  (List.range 11).foldl (fun st _ => CreateNewJob st 100 tmpl0) initJobsState

/-- The id of the very first job created in the scenarios (counter 0). -/
def firstJobId100 : CStr := GenerateJobId 100 0

/-- Eleven job rotations in which the wall clock moves backwards after
the first job (255 = hex "ff", then 16 = hex "10"), so later job ids
compare below the first one. -/
def fifoCexState : JobsState :=
  (List.range 10).foldl (fun st _ => CreateNewJob st 16 tmpl0) (CreateNewJob initJobsState 255 tmpl0)

/-- C10: `CalculatePrimeCandidate` always returns an odd value, namely
`hash * 2^shift + adder` itself when that is odd and its successor when
it is even, so the consensus prime candidate is never even and differs
from the literal formula by at most one. -/
theorem C10_prime_candidate_odd (hashVal adder shift : ℕ) :
    CalculatePrimeCandidate hashVal adder shift % 2 = 1 ∧
    (CalculatePrimeCandidate hashVal adder shift = hashVal * 2 ^ shift + adder ∨
      CalculatePrimeCandidate hashVal adder shift = hashVal * 2 ^ shift + adder + 1) := by
  unfold CalculatePrimeCandidate
  by_cases h : (hashVal * 2 ^ shift + adder) % 2 = 0 <;> simp [h] <;> omega

/-- C9: `ReinitializeIfNeeded` reinitializes exactly when the requested
key differs from the stored one, and (when the allocation of the first
call succeeds) a second call with the same key performs no
reinitialization and returns success, so two sequential calls
reinitialize at most once. -/
theorem C9_rekey_idempotent (st : RXState) (key : List ℕ) (a₁ a₂ : Bool)
    (h : a₁ = true) :
    ((ReinitializeIfNeeded st a₁ key).2.2 = true ↔ st.currentKey ≠ key) ∧
    ¬((ReinitializeIfNeeded st a₁ key).2.2 = true ∧
      (ReinitializeIfNeeded (ReinitializeIfNeeded st a₁ key).2.1 a₂ key).2.2 = true) ∧
    (ReinitializeIfNeeded (ReinitializeIfNeeded st a₁ key).2.1 a₂ key).1 = true ∧
    (ReinitializeIfNeeded (ReinitializeIfNeeded st a₁ key).2.1 a₂ key).2.2 = false := by
  subst h
  by_cases hk : st.currentKey = key <;>
    simp [ReinitializeIfNeeded, Initialize, hk]

/-- Witness for C9 at a concrete key change: the fresh miner holds the
empty key, so the first call reinitializes and the second does not. -/
theorem C9_rekey_idempotent_witness :
    ((ReinitializeIfNeeded initRXState true [1, 2]).2.2 = true ↔
      initRXState.currentKey ≠ [1, 2]) ∧
    ¬((ReinitializeIfNeeded initRXState true [1, 2]).2.2 = true ∧
      (ReinitializeIfNeeded (ReinitializeIfNeeded initRXState true [1, 2]).2.1 false [1, 2]).2.2 = true) ∧
    (ReinitializeIfNeeded (ReinitializeIfNeeded initRXState true [1, 2]).2.1 false [1, 2]).1 = true ∧
    (ReinitializeIfNeeded (ReinitializeIfNeeded initRXState true [1, 2]).2.1 false [1, 2]).2.2 = false :=
  C9_rekey_idempotent initRXState [1, 2] true false rfl

set_option maxRecDepth 100000 in
/-- C8 counterexample: the merit round trip is not the identity on
`[0, 10^8]` — at `x = 249` the binary64 computation
`uint32((249 / 10^6) * 10^6)` truncates to 248. -/
theorem C8_roundtrip_cex :
    ¬(∀ x : ℕ, x ≤ 10 ^ 8 → MeritToCompact (CompactToMerit x) = x) := by
  intro h
  have h1 := h 249 (by norm_num)
  rw [show MeritToCompact (CompactToMerit 249) = 248 from by decide] at h1
  exact absurd h1 (by decide)

set_option maxRecDepth 400000 in
/-- C8 amended: the merit round trip `MeritToCompact ∘ CompactToMerit`
is the identity on `[0, 249)`; 249 is the smallest input where it
fails. -/
theorem C8_roundtrip_below_249 (x : ℕ) (h : x < 249) :
    MeritToCompact (CompactToMerit x) = x := by
  have hall : ∀ y, y < 249 → MeritToCompact (CompactToMerit y) = y := by decide
  exact hall x h

/-- Witness for the amended C8 at `x = 100`. -/
theorem C8_roundtrip_below_249_witness :
    MeritToCompact (CompactToMerit 100) = 100 :=
  C8_roundtrip_below_249 100 (by norm_num)

/-- C4 counterexample: a client that sends `mining.authorize` without a
prior `mining.subscribe` reaches a state with `authorized = true` but
`subscribed = false`, so the claimed invariant fails in a reachable
state. -/
theorem C4_authorize_without_subscribe_cex :
    ¬(∀ ops : List ClientOp,
        (runClientOps initClient ops).authorized = true →
        (runClientOps initClient ops).subscribed = true) := by
  intro h
  exact absurd (h [ClientOp.authorize "WALLET.w1".data] (by decide)) (by decide)

/-- C4 amended: a Monero-style `login` raises both `subscribed` and
`authorized`, while `mining.authorize` raises only `authorized` and
leaves `subscribed` unchanged — so `authorized` implies `subscribed`
after a login but not in general. -/
theorem C4_login_sets_both (c : ClientConn) (worker login : CStr) :
    ((applyClientOp c (.login login)).subscribed = true ∧
      (applyClientOp c (.login login)).authorized = true) ∧
    ((applyClientOp c (.authorize worker)).authorized = true ∧
      (applyClientOp c (.authorize worker)).subscribed = c.subscribed) := by
  refine ⟨⟨rfl, rfl⟩, rfl, rfl⟩

/-- Reduction of `ValidateAndSubmitShare` when the job id is missing
from the history: the share is rejected outright. -/
theorem validate_unknown_job (jobs : List (CStr × StratumJob)) (jobId nonceHex : CStr)
    (initOk : Bool) (hashFn : ℕ → ℕ) (submitOk : Bool)
    (hl : jobs.lookup jobId = none) :
    ValidateAndSubmitShare jobs jobId nonceHex initOk hashFn submitOk = false := by
  unfold ValidateAndSubmitShare
  rw [hl]

/-- Reduction of `ValidateAndSubmitShare` when the job id is found. -/
theorem validate_known_job (jobs : List (CStr × StratumJob)) (jobId nonceHex : CStr)
    (initOk : Bool) (hashFn : ℕ → ℕ) (submitOk : Bool) (job : StratumJob)
    (hl : jobs.lookup jobId = some job) :
    ValidateAndSubmitShare jobs jobId nonceHex initOk hashFn submitOk =
      (if !job.hasTemplate then false
       else if !initOk then false
       else if SetCompact job.bits < hashFn (nonceOfHex nonceHex) then false
       else submitOk) := by
  unfold ValidateAndSubmitShare
  rw [hl]

/-- Counter bookkeeping of one `HandleSubmit` call: the two share
counters together grow by one exactly when the call got past the
malformed-submit guard. -/
theorem handleSubmit_counter_step (client : ClientConn) (c : SubmitCall) :
    (HandleSubmit client c).1.sharesAccepted + (HandleSubmit client c).1.sharesRejected =
      client.sharesAccepted + client.sharesRejected +
        (if submitWellFormed c then 1 else 0) := by
  unfold HandleSubmit HandleSubmitFields submitWellFormed
  by_cases h1 : (extractSubmitFields c.params).1 = []
  · simp [h1]
  · by_cases h2 : (extractSubmitFields c.params).2 = []
    · simp [h1, h2]
    · by_cases hv : ValidateAndSubmitShare c.jobs (extractSubmitFields c.params).1
          (extractSubmitFields c.params).2 c.initOk c.hashFn c.submitOk = true
      · simp [h1, h2, hv]
        omega
      · simp [h1, h2, hv]
        omega

/-- C5 counterexample: a malformed submit (no job id, no nonce) is
answered with error 20 without touching either share counter, so the
two counters do not account for every `HandleSubmit` call. -/
theorem C5_malformed_submit_cex :
    ¬(∀ calls : List SubmitCall,
        (runSubmits initClient calls).sharesAccepted +
          (runSubmits initClient calls).sharesRejected = calls.length) := by
  intro h
  exact absurd (h [⟨[], [], true, fun _ => 0, true⟩]) (by decide)

/-- C5 amended: over any sequence of `HandleSubmit` calls,
`shares_accepted + shares_rejected` grows by exactly the number of
well-formed calls — the ones whose extracted job id and nonce are both
non-empty; submits rejected with error 20 are not counted. -/
theorem C5_share_accounting (calls : List SubmitCall) (client : ClientConn) :
    (runSubmits client calls).sharesAccepted + (runSubmits client calls).sharesRejected =
      client.sharesAccepted + client.sharesRejected +
        (calls.filter submitWellFormed).length := by
  induction calls generalizing client with
  | nil => simp [runSubmits]
  | cons c cs ih =>
    have hstep := handleSubmit_counter_step client c
    have htail := ih (HandleSubmit client c).1
    simp only [runSubmits, List.foldl_cons] at htail ⊢
    rw [htail, hstep, List.filter_cons]
    by_cases hw : submitWellFormed c = true
    · simp [hw]
      omega
    · simp [hw]

/-- C1 counterexample: a submit whose nonce string is "ff" (one byte,
not four) can still be accepted — the code falls back to nonce 0 instead
of rejecting — so acceptance does not imply that the nonce parses as
exactly 4 hex bytes. -/
theorem C1_nonce_fallback_cex :
    ¬(∀ (jobs : List (CStr × StratumJob)) (jobId nonceHex : CStr)
        (initOk : Bool) (hashFn : ℕ → ℕ) (submitOk : Bool),
        ValidateAndSubmitShare jobs jobId nonceHex initOk hashFn submitOk = true →
          (∃ job, jobs.lookup jobId = some job ∧
            hashFn (nonceOfHex nonceHex) ≤ SetCompact job.bits) ∧
          ParsesAsFourHexBytes nonceHex) := by
  intro h
  have h1 := h [("a".data, ⟨"a".data, 0x1d00ffff, 1, [], true⟩)] "a".data "ff".data
    true (fun _ => 0) true (by decide)
  exact absurd h1.2 (by decide)

/-- C1 amended: every accepted share does come from a job id present in
the history and its RandomX hash (at the nonce the server decoded, with
fallback 0 for a string that is not 8 hex characters) meets the
consensus target decoded from the job's bits; only the claim's
"nonce parses as exactly 4 bytes" conjunct fails. -/
theorem C1_accepted_meets_target (jobs : List (CStr × StratumJob)) (jobId nonceHex : CStr)
    (initOk : Bool) (hashFn : ℕ → ℕ) (submitOk : Bool)
    (h : ValidateAndSubmitShare jobs jobId nonceHex initOk hashFn submitOk = true) :
    ∃ job, jobs.lookup jobId = some job ∧
      hashFn (nonceOfHex nonceHex) ≤ SetCompact job.bits := by
  rcases hl : jobs.lookup jobId with _ | job
  · rw [validate_unknown_job jobs jobId nonceHex initOk hashFn submitOk hl] at h
    exact absurd h (by simp)
  · rw [validate_known_job jobs jobId nonceHex initOk hashFn submitOk job hl] at h
    refine ⟨job, rfl, ?_⟩
    split_ifs at h with h1 h2 h3
    · exact Nat.le_of_not_lt h3

/-- Witness for the amended C1: a concrete accepted share (known job,
4-byte nonce "ff000000", hash 0) indeed meets the decoded target. -/
theorem C1_accepted_meets_target_witness :
    ∃ job, ([("a".data, ⟨"a".data, 0x1d00ffff, 1, [], true⟩)] :
        List (CStr × StratumJob)).lookup "a".data = some job ∧
      (fun _ => 0 : ℕ → ℕ) (nonceOfHex "ff000000".data) ≤ SetCompact job.bits :=
  C1_accepted_meets_target [("a".data, ⟨"a".data, 0x1d00ffff, 1, [], true⟩)]
    "a".data "ff000000".data true (fun _ => 0) true (by decide)

/-- C2 counterexample: a submit carrying a job id that is no longer in
the history — here the first job's id after the spec's eleven rotations
— is answered with error code 23 ("Invalid share"), not with the
claimed code 21. -/
theorem C2_stale_error_code_cex :
    rotatedState.jobs.lookup firstJobId100 = none ∧
    (HandleSubmitFields initClient rotatedState.jobs firstJobId100 "ff000000".data
        true (fun _ => 0) true).2 ≠ SubmitResp.err 21 := by
  constructor
  · decide
  · decide

/-- C2 amended: a well-formed submit whose job id is missing from the
job history is rejected — `shares_rejected` is incremented — and the
reply carries error code 23 ("Invalid share"), the single code
`HandleSubmit` uses for every failed validation; code 21 is never
produced. -/
theorem C2_unknown_job_rejected (client : ClientConn) (jobs : List (CStr × StratumJob))
    (jobId nonceHex : CStr) (initOk : Bool) (hashFn : ℕ → ℕ) (submitOk : Bool)
    (hl : jobs.lookup jobId = none) (hj : jobId ≠ []) (hn : nonceHex ≠ []) :
    HandleSubmitFields client jobs jobId nonceHex initOk hashFn submitOk =
      ({ client with sharesRejected := client.sharesRejected + 1 }, SubmitResp.err 23) := by
  unfold HandleSubmitFields
  rw [validate_unknown_job jobs jobId nonceHex initOk hashFn submitOk hl]
  simp [hj, hn]

/-- Witness for the amended C2, realizing the spec's scenario: after
eleven job rotations the first job's id is gone from the history, and a
submit with it gets error 23 with `shares_rejected` going from 0 to
1. -/
theorem C2_unknown_job_rejected_witness :
    HandleSubmitFields initClient rotatedState.jobs firstJobId100 "ff000000".data
        true (fun _ => 0) true =
      ({ initClient with sharesRejected := 1 }, SubmitResp.err 23) :=
  C2_unknown_job_rejected initClient rotatedState.jobs firstJobId100 "ff000000".data
    true (fun _ => 0) true (by decide) (by decide) (by decide)

/-- Indexing past a prefix of an append peels the prefix off. -/
theorem getD_append_len (l l' : List ℕ) (k d : ℕ) :
    (l ++ l').getD (l.length + k) d = l'.getD k d := by
  rw [List.getD_append_right _ _ _ _ (Nat.le_add_right _ _), Nat.add_sub_cancel_left]

/-- C7: the mining blob is exactly 76 bytes, with bytes 0-31 the
previous block hash, bytes 32-34 the three low bytes of the version
little-endian, bytes 35-38 the time little-endian, bytes 39-42 zero
(the nonce placeholder), bytes 43-74 the 32 bytes of the merkle root,
and byte 75 the low byte of bits. -/
theorem C7_blob_layout (prevHash merkle : List ℕ) (version time bits : ℕ)
    (hp : prevHash.length = 32) (hm : merkle.length = 32) :
    (MiningBlob prevHash merkle version time bits).length = 76 ∧
    (∀ i, i < 32 →
      (MiningBlob prevHash merkle version time bits).getD i 0 = prevHash.getD i 0) ∧
    (MiningBlob prevHash merkle version time bits).getD 32 0 = version % 2 ^ 8 ∧
    (MiningBlob prevHash merkle version time bits).getD 33 0 = version / 2 ^ 8 % 2 ^ 8 ∧
    (MiningBlob prevHash merkle version time bits).getD 34 0 = version / 2 ^ 16 % 2 ^ 8 ∧
    (MiningBlob prevHash merkle version time bits).getD 35 0 = time % 2 ^ 8 ∧
    (MiningBlob prevHash merkle version time bits).getD 36 0 = time / 2 ^ 8 % 2 ^ 8 ∧
    (MiningBlob prevHash merkle version time bits).getD 37 0 = time / 2 ^ 16 % 2 ^ 8 ∧
    (MiningBlob prevHash merkle version time bits).getD 38 0 = time / 2 ^ 24 % 2 ^ 8 ∧
    (∀ i, 39 ≤ i → i ≤ 42 →
      (MiningBlob prevHash merkle version time bits).getD i 0 = 0) ∧
    (∀ i, i < 32 →
      (MiningBlob prevHash merkle version time bits).getD (43 + i) 0 = merkle.getD i 0) ∧
    (MiningBlob prevHash merkle version time bits).getD 75 0 = bits % 2 ^ 8 := by
  have hp' : prevHash.take 32 = prevHash := List.take_of_length_le (le_of_eq hp)
  have hm' : merkle.take 32 = merkle := List.take_of_length_le (le_of_eq hm)
  unfold MiningBlob
  rw [hp', hm']
  refine ⟨?_, ?_, ?_, ?_, ?_, ?_, ?_, ?_, ?_, ?_, ?_, ?_⟩
  · simp [hp, hm]
  · simp only [List.append_assoc]
    intro i hi
    rw [List.getD_append _ _ _ _ (by omega)]
  · simp only [List.append_assoc]
    rw [show (32 : ℕ) = prevHash.length + 0 from by simp [hp], getD_append_len]
    rfl
  · simp only [List.append_assoc]
    rw [show (33 : ℕ) = prevHash.length + 1 from by simp [hp], getD_append_len]
    rfl
  · simp only [List.append_assoc]
    rw [show (34 : ℕ) = prevHash.length + 2 from by simp [hp], getD_append_len]
    rfl
  · simp only [List.append_assoc]
    rw [show (35 : ℕ) = prevHash.length + 3 from by simp [hp], getD_append_len]
    rfl
  · simp only [List.append_assoc]
    rw [show (36 : ℕ) = prevHash.length + 4 from by simp [hp], getD_append_len]
    rfl
  · simp only [List.append_assoc]
    rw [show (37 : ℕ) = prevHash.length + 5 from by simp [hp], getD_append_len]
    rfl
  · simp only [List.append_assoc]
    rw [show (38 : ℕ) = prevHash.length + 6 from by simp [hp], getD_append_len]
    rfl
  · simp only [List.append_assoc]
    intro i h1 h2
    interval_cases i
    · rw [show (39 : ℕ) = prevHash.length + 7 from by simp [hp], getD_append_len]
      rfl
    · rw [show (40 : ℕ) = prevHash.length + 8 from by simp [hp], getD_append_len]
      rfl
    · rw [show (41 : ℕ) = prevHash.length + 9 from by simp [hp], getD_append_len]
      rfl
    · rw [show (42 : ℕ) = prevHash.length + 10 from by simp [hp], getD_append_len]
      rfl
  · intro i hi
    rw [show 43 + i =
        (prevHash ++ [version % 2 ^ 8, version / 2 ^ 8 % 2 ^ 8, version / 2 ^ 16 % 2 ^ 8]
          ++ [time % 2 ^ 8, time / 2 ^ 8 % 2 ^ 8, time / 2 ^ 16 % 2 ^ 8, time / 2 ^ 24 % 2 ^ 8]
          ++ [0, 0, 0, 0]).length + i from by simp [hp],
      List.append_assoc _ merkle _, getD_append_len]
    rw [List.getD_append _ _ _ _ (by omega)]
  · rw [show (75 : ℕ) =
        (prevHash ++ [version % 2 ^ 8, version / 2 ^ 8 % 2 ^ 8, version / 2 ^ 16 % 2 ^ 8]
          ++ [time % 2 ^ 8, time / 2 ^ 8 % 2 ^ 8, time / 2 ^ 16 % 2 ^ 8, time / 2 ^ 24 % 2 ^ 8]
          ++ [0, 0, 0, 0] ++ merkle).length + 0 from by simp [hp, hm],
      getD_append_len]
    rfl

/-- Witness for C7 at a concrete template: 32-byte hashes, version
`0x20000000`, time 1700000000, bits `0x1d00ffff`. -/
theorem C7_blob_layout_witness :
    (MiningBlob (List.replicate 32 5) (List.replicate 32 9) 0x20000000 1700000000 0x1d00ffff).length = 76 ∧
    (∀ i, i < 32 →
      (MiningBlob (List.replicate 32 5) (List.replicate 32 9) 0x20000000 1700000000 0x1d00ffff).getD i 0 =
        (List.replicate 32 5).getD i 0) ∧
    (MiningBlob (List.replicate 32 5) (List.replicate 32 9) 0x20000000 1700000000 0x1d00ffff).getD 32 0 =
      0x20000000 % 2 ^ 8 ∧
    (MiningBlob (List.replicate 32 5) (List.replicate 32 9) 0x20000000 1700000000 0x1d00ffff).getD 33 0 =
      0x20000000 / 2 ^ 8 % 2 ^ 8 ∧
    (MiningBlob (List.replicate 32 5) (List.replicate 32 9) 0x20000000 1700000000 0x1d00ffff).getD 34 0 =
      0x20000000 / 2 ^ 16 % 2 ^ 8 ∧
    (MiningBlob (List.replicate 32 5) (List.replicate 32 9) 0x20000000 1700000000 0x1d00ffff).getD 35 0 =
      1700000000 % 2 ^ 8 ∧
    (MiningBlob (List.replicate 32 5) (List.replicate 32 9) 0x20000000 1700000000 0x1d00ffff).getD 36 0 =
      1700000000 / 2 ^ 8 % 2 ^ 8 ∧
    (MiningBlob (List.replicate 32 5) (List.replicate 32 9) 0x20000000 1700000000 0x1d00ffff).getD 37 0 =
      1700000000 / 2 ^ 16 % 2 ^ 8 ∧
    (MiningBlob (List.replicate 32 5) (List.replicate 32 9) 0x20000000 1700000000 0x1d00ffff).getD 38 0 =
      1700000000 / 2 ^ 24 % 2 ^ 8 ∧
    (∀ i, 39 ≤ i → i ≤ 42 →
      (MiningBlob (List.replicate 32 5) (List.replicate 32 9) 0x20000000 1700000000 0x1d00ffff).getD i 0 = 0) ∧
    (∀ i, i < 32 →
      (MiningBlob (List.replicate 32 5) (List.replicate 32 9) 0x20000000 1700000000 0x1d00ffff).getD (43 + i) 0 =
        (List.replicate 32 9).getD i 0) ∧
    (MiningBlob (List.replicate 32 5) (List.replicate 32 9) 0x20000000 1700000000 0x1d00ffff).getD 75 0 =
      0x1d00ffff % 2 ^ 8 :=
  C7_blob_layout (List.replicate 32 5) (List.replicate 32 9) 0x20000000 1700000000 0x1d00ffff
    (by decide) (by decide)

/-- Characterization of the inner marking loop: with enough fuel, bit
`i` ends up set exactly when it was already set or lies on the
arithmetic progression `j, j + p, j + 2p, …` below `nBits`. -/
theorem markMultiples_spec (p nBits : ℕ) :
    ∀ (fuel j : ℕ) (s : ℕ → Bool) (i : ℕ), nBits ≤ j + fuel * p →
      (markMultiples fuel p nBits s j i = true ↔
        (s i = true ∨ ∃ k, i = j + k * p ∧ i < nBits)) := by
  intro fuel
  induction fuel with
  | zero =>
    intro j s i hf
    simp only [markMultiples, Nat.zero_mul, Nat.add_zero] at hf ⊢
    constructor
    · exact Or.inl
    · rintro (h | ⟨k, rfl, hlt⟩)
      · exact h
      · exact absurd (Nat.le_add_right j (k * p)) (by omega)
  | succ fuel ih =>
    intro j s i hf
    have hf' : nBits ≤ j + p + fuel * p := by
      have e : j + (fuel + 1) * p = j + p + fuel * p := by ring
      omega
    simp only [markMultiples]
    by_cases hj : j < nBits
    · rw [if_pos hj, ih (j + p) (setBit s j) i hf']
      by_cases hij : i = j
      · subst hij
        refine iff_of_true (Or.inl ?_) (Or.inr ⟨0, by simp, hj⟩)
        simp [setBit]
      · simp only [setBit, if_neg hij]
        constructor
        · rintro (h | ⟨k, rfl, hlt⟩)
          · exact Or.inl h
          · exact Or.inr ⟨k + 1, by ring, hlt⟩
        · rintro (h | ⟨k, rfl, hlt⟩)
          · exact Or.inl h
          · match k with
            | 0 => exact absurd (by simp) hij
            | k + 1 => exact Or.inr ⟨k, by ring, hlt⟩
    · rw [if_neg hj]
      constructor
      · exact Or.inl
      · rintro (h | ⟨k, rfl, hlt⟩)
        · exact h
        · exact absurd (Nat.le_add_right j (k * p)) (by omega)

/-- C6 counterexample: when the sieving prime divides the segment base
the code starts marking at the next multiple, so bit 0 stays clear even
though `p` divides `adder_base + 0`; here `p = 2`, `adder_base = 0` (the
first segment of thread 0) and bit 0 survives. -/
theorem C6_sieve_first_bit_cex :
    ¬(∀ i, i < 8 → (SieveSegment [2] 0 8 i = true ↔ 2 ∣ (0 + i))) := by
  intro h
  have h0 := (h 0 (by norm_num)).mpr ⟨0, rfl⟩
  exact absurd h0 (by decide)

/-- C6 amended: for a sieving prime `p`, bit `i` of the segment at
`adder_base` is marked composite exactly when `i < nBits`, `p` divides
`adder_base + i`, and `adder_base + i` is at least
`(adder_base / p + 1) * p` — the first multiple of `p` strictly beyond
the base that the code starts from.  When `p` does not divide the base
this is the spec's `ceil(adder_base / p) * p`; when it does, offset 0 is
skipped. -/
theorem C6_sieve_marks (p segmentStart nBits i : ℕ) (hp : 2 ≤ p) :
    SieveSegment [p] segmentStart nBits i = true ↔
      (i < nBits ∧ p ∣ (segmentStart + i) ∧
        (segmentStart / p + 1) * p ≤ segmentStart + i) := by
  have hp0 : 0 < p := by omega
  have hFgt : segmentStart < (segmentStart / p + 1) * p := by
    have h1 := Nat.div_add_mod segmentStart p
    have h2 := Nat.mod_lt segmentStart hp0
    have h3 : (segmentStart / p + 1) * p = p * (segmentStart / p) + p := by ring
    rw [h3]
    generalize hq : p * (segmentStart / p) = q at h1 ⊢
    generalize hr : segmentStart % p = r at h1 h2
    omega
  have hstep : SieveSegment [p] segmentStart nBits =
      (if nBits ≤ (segmentStart / p + 1) * p - segmentStart then (fun _ => false)
       else markMultiples (nBits + 1) p nBits (fun _ => false)
         ((segmentStart / p + 1) * p - segmentStart)) := rfl
  rw [hstep]
  set F := (segmentStart / p + 1) * p with hF
  set first := F - segmentStart with hfirst
  have hsf : segmentStart + first = F := by omega
  by_cases hg : nBits ≤ first
  · rw [if_pos hg]
    simp only [Bool.false_eq_true, false_iff]
    rintro ⟨hlt, hdvd, hge⟩
    omega
  · rw [if_neg hg]
    have hfuel : nBits ≤ first + (nBits + 1) * p := by
      have h1 : nBits + 1 ≤ (nBits + 1) * p := Nat.le_mul_of_pos_right _ hp0
      omega
    rw [markMultiples_spec p nBits (nBits + 1) first (fun _ => false) i hfuel]
    simp only [Bool.false_eq_true, false_or]
    constructor
    · rintro ⟨k, rfl, hlt⟩
      refine ⟨hlt, ?_, ?_⟩
      · refine ⟨segmentStart / p + 1 + k, ?_⟩
        have : segmentStart + (first + k * p) = F + k * p := by omega
        rw [this, hF]; ring
      · omega
    · rintro ⟨hlt, ⟨m, hm⟩, hge⟩
      have hmge : segmentStart / p + 1 ≤ m := by
        have h1 : (segmentStart / p + 1) * p ≤ m * p := by
          calc (segmentStart / p + 1) * p ≤ segmentStart + i := hge
          _ = p * m := hm
          _ = m * p := by ring
        exact Nat.le_of_mul_le_mul_right h1 hp0
      refine ⟨m - (segmentStart / p + 1), ?_, hlt⟩
      have hkp : (m - (segmentStart / p + 1)) * p = m * p - F := by
        rw [hF, Nat.sub_mul]
      have hmpF : F ≤ m * p := by
        calc F = (segmentStart / p + 1) * p := hF
        _ ≤ m * p := by
            exact Nat.mul_le_mul_right p hmge
      have hmp : segmentStart + i = m * p := by rw [hm]; ring
      omega

/-- Witness for the amended C6: with `p = 3` and base 5, offset 1
(value 6 = 2·3, the first multiple of 3 beyond the base) is marked. -/
theorem C6_sieve_marks_witness : SieveSegment [3] 5 16 1 = true :=
  (C6_sieve_marks 3 5 16 1 (by norm_num)).mpr ⟨by norm_num, ⟨2, by norm_num⟩, by norm_num⟩

/-- The string comparison is irreflexive. -/
theorem ltCharList_irrefl : ∀ a : CStr, ltCharList a a = false := by
  intro a
  induction a with
  | nil => rfl
  | cons x xs ih => simp [ltCharList, ih]

/-- The string comparison is transitive. -/
theorem ltCharList_trans : ∀ a b c : CStr,
    ltCharList a b = true → ltCharList b c = true → ltCharList a c = true := by
  intro a
  induction a with
  | nil =>
    intro b c hab hbc
    cases b with
    | nil => simp [ltCharList] at hab
    | cons y ys =>
      cases c with
      | nil => simp [ltCharList] at hbc
      | cons z zs => simp [ltCharList]
  | cons x xs ih =>
    intro b c hab hbc
    cases b with
    | nil => simp [ltCharList] at hab
    | cons y ys =>
      cases c with
      | nil => simp [ltCharList] at hbc
      | cons z zs =>
        simp only [ltCharList] at hab hbc ⊢
        by_cases h1 : x.toNat < y.toNat
        · by_cases h2 : y.toNat < z.toNat
          · rw [if_pos (by omega)]
          · by_cases h3 : z.toNat < y.toNat
            · simp [h2, h3] at hbc
            · rw [if_pos (by omega)]
        · by_cases h1' : y.toNat < x.toNat
          · simp [h1, h1'] at hab
          · simp only [if_neg h1, if_neg h1'] at hab
            by_cases h2 : y.toNat < z.toNat
            · rw [if_pos (by omega)]
            · by_cases h3 : z.toNat < y.toNat
              · simp [h2, h3] at hbc
              · simp only [if_neg h2, if_neg h3] at hbc
                rw [if_neg (by omega), if_neg (by omega)]
                exact ih ys zs hab hbc

/-- If `u < v` and `v` is not above `w` (so `v ≤ w` in the total string
order), then `u < w`. -/
theorem ltCharList_trans_nlt : ∀ u v w : CStr,
    ltCharList u v = true → ltCharList w v = false → ltCharList u w = true := by
  intro u
  induction u with
  | nil =>
    intro v w huv hwv
    cases v with
    | nil => simp [ltCharList] at huv
    | cons y ys =>
      cases w with
      | nil => simp [ltCharList] at hwv
      | cons z zs => simp [ltCharList]
  | cons x xs ih =>
    intro v w huv hwv
    cases v with
    | nil => simp [ltCharList] at huv
    | cons y ys =>
      cases w with
      | nil => simp [ltCharList] at hwv
      | cons z zs =>
        simp only [ltCharList] at huv hwv ⊢
        by_cases h3 : z.toNat < y.toNat
        · simp [h3] at hwv
        · by_cases h1 : x.toNat < y.toNat
          · by_cases h4 : y.toNat < z.toNat
            · rw [if_pos (by omega)]
            · rw [if_pos (by omega)]
          · by_cases h1' : y.toNat < x.toNat
            · simp [h1, h1'] at huv
            · simp only [if_neg h1, if_neg h1'] at huv
              by_cases h4 : y.toNat < z.toNat
              · rw [if_pos (by omega)]
              · simp only [if_neg h4, if_neg h3] at hwv
                rw [if_neg (by omega), if_neg (by omega)]
                exact ih ys zs huv hwv

/-- Running the `minKey` fold from accumulator `some a` yields a value
drawn from `a` and the keys, not above `a`, and not above any key. -/
theorem minKey_fold (t : List (CStr × StratumJob)) :
    ∀ (a m : CStr),
      t.foldl (fun acc kv =>
        match acc with
        | none => some kv.1
        | some mm => if ltCharList kv.1 mm then some kv.1 else some mm) (some a) = some m →
      (m = a ∨ m ∈ t.map Prod.fst) ∧ ltCharList a m = false ∧
        ∀ k ∈ t.map Prod.fst, ltCharList k m = false := by
  induction t with
  | nil =>
    intro a m h
    simp only [List.foldl_nil, Option.some.injEq] at h
    subst h
    exact ⟨Or.inl rfl, ltCharList_irrefl _, by simp⟩
  | cons kv t ih =>
    intro a m h
    simp only [List.foldl_cons] at h
    by_cases hlt : ltCharList kv.1 a = true
    · rw [if_pos hlt] at h
      obtain ⟨hmem, hbound, hall⟩ := ih kv.1 m h
      refine ⟨?_, ?_, ?_⟩
      · rcases hmem with rfl | hm
        · exact Or.inr (List.map_cons Prod.fst kv t ▸ List.mem_cons_self _ _)
        · exact Or.inr (List.map_cons Prod.fst kv t ▸ List.mem_cons_of_mem _ hm)
      · cases hA : ltCharList a m
        · rfl
        · exact absurd (ltCharList_trans kv.1 a m hlt hA) (by simp [hbound])
      · intro k hk
        simp only [List.map_cons, List.mem_cons] at hk
        rcases hk with rfl | hk
        · exact hbound
        · exact hall k hk
    · rw [if_neg hlt] at h
      obtain ⟨hmem, hbound, hall⟩ := ih a m h
      have hlt' : ltCharList kv.1 a = false := Bool.eq_false_iff.mpr hlt
      refine ⟨?_, hbound, ?_⟩
      · rcases hmem with rfl | hm
        · exact Or.inl rfl
        · exact Or.inr (List.map_cons Prod.fst kv t ▸ List.mem_cons_of_mem _ hm)
      · intro k hk
        simp only [List.map_cons, List.mem_cons] at hk
        rcases hk with rfl | hk
        · cases hK : ltCharList kv.1 m
          · rfl
          · exact absurd (ltCharList_trans_nlt kv.1 m a hK hbound) (by simp [hlt'])
        · exact hall k hk

/-- `m_jobs.begin()` of a non-empty map: `minKey` returns a key that is
present and below-or-equal every key. -/
theorem minKey_spec (l : List (CStr × StratumJob)) (m : CStr) (h : minKey l = some m) :
    m ∈ l.map Prod.fst ∧ ∀ k ∈ l.map Prod.fst, ltCharList k m = false := by
  cases l with
  | nil => simp [minKey] at h
  | cons kv t =>
    unfold minKey at h
    simp only [List.foldl_cons] at h
    obtain ⟨hmem, hbound, hall⟩ := minKey_fold t kv.1 m h
    constructor
    · rcases hmem with rfl | hm
      · exact List.map_cons Prod.fst kv t ▸ List.mem_cons_self _ _
      · exact List.map_cons Prod.fst kv t ▸ List.mem_cons_of_mem _ hm
    · intro k hk
      simp only [List.map_cons, List.mem_cons] at hk
      rcases hk with rfl | hk
      · exact hbound
      · exact hall k hk

/-- The `minKey` fold from a `some` accumulator always yields `some`. -/
theorem minKey_fold_isSome (t : List (CStr × StratumJob)) :
    ∀ a : CStr, ∃ m, t.foldl (fun acc kv =>
      match acc with
      | none => some kv.1
      | some mm => if ltCharList kv.1 mm then some kv.1 else some mm) (some a) = some m := by
  induction t with
  | nil => intro a; exact ⟨a, rfl⟩
  | cons kv t ih =>
    intro a
    simp only [List.foldl_cons]
    by_cases hlt : ltCharList kv.1 a = true
    · rw [if_pos hlt]; exact ih kv.1
    · rw [if_neg hlt]; exact ih a

/-- A non-empty job map has a begin event. -/
theorem minKey_cons (kv : CStr × StratumJob) (t : List (CStr × StratumJob)) :
    ∃ m, minKey (kv :: t) = some m := by
  unfold minKey
  simp only [List.foldl_cons]
  exact minKey_fold_isSome t kv.1

/-- Inserting into the map grows it by at most one entry. -/
theorem mapInsert_length (k : CStr) (v : StratumJob) :
    ∀ l : List (CStr × StratumJob),
      (mapInsert k v l).length = l.length ∨ (mapInsert k v l).length = l.length + 1 := by
  intro l
  induction l with
  | nil => right; rfl
  | cons kv t ih =>
    obtain ⟨k', v'⟩ := kv
    by_cases h : k = k'
    · simp [mapInsert, h]
    · simp only [mapInsert, if_neg h, List.length_cons]
      omega

/-- Erasing the minimum of a non-empty map removes exactly one entry. -/
theorem eraseMin_length (l : List (CStr × StratumJob)) (m : CStr)
    (h : minKey l = some m) : (eraseMin l).length + 1 = l.length := by
  have hmem := (minKey_spec l m h).1
  obtain ⟨kv, hkv, hfst⟩ := List.mem_map.mp hmem
  unfold eraseMin
  rw [h]
  exact List.length_eraseP_add_one hkv (by simp [hfst])

/-- Surviving keys after erasing the minimum were present before. -/
theorem eraseMin_keys_subset (l : List (CStr × StratumJob)) :
    ∀ k ∈ (eraseMin l).map Prod.fst, k ∈ l.map Prod.fst := by
  intro k hk
  unfold eraseMin at hk
  cases hmk : minKey l with
  | none => rw [hmk] at hk; exact hk
  | some m =>
    rw [hmk] at hk
    exact ((List.eraseP_sublist l).map Prod.fst).subset hk

/-- C3 counterexample: with the wall clock moving backwards between
rotations (hex "ff" then hex "10"), the eleventh insertion evicts the
SECOND-inserted job (smallest job-id string) while the FIRST-inserted
job survives — so the entry evicted on overflow is not the oldest
(first-inserted) one, refuting the FIFO part of the claim at this
concrete run (the 10-entry bound itself holds: the map ends at 10). -/
theorem C3_fifo_eviction_cex :
    fifoCexState.jobs.length = 10 ∧
    GenerateJobId 255 0 ∈ fifoCexState.jobs.map Prod.fst ∧
    GenerateJobId 16 1 ∉ fifoCexState.jobs.map Prod.fst := by
  refine ⟨by decide, by decide, by decide⟩

/-- C3 amended: starting from a map of at most 10 jobs, `CreateNewJob`
keeps the map at no more than 10 jobs, makes the newly created job the
current job exposed to broadcasts, and on overflow evicts exactly one
entry, namely one holding the smallest job-id string (`m_jobs.begin()`
of the `std::map`) — which is the first-inserted job only when job ids
happen to be created in increasing string order. -/
theorem C3_history_bound (st : JobsState) (now : ℕ) (tmpl : BlockTmpl)
    (hlen : st.jobs.length ≤ 10) :
    (CreateNewJob st now tmpl).jobs.length ≤ 10 ∧
    (CreateNewJob st now tmpl).currentJob =
      some (jobOfTemplate (GenerateJobId now st.jobCounter) tmpl) ∧
    (∀ m, minKey (mapInsert (GenerateJobId now st.jobCounter)
          (jobOfTemplate (GenerateJobId now st.jobCounter) tmpl) st.jobs) = some m →
      (∀ k ∈ (CreateNewJob st now tmpl).jobs.map Prod.fst, ltCharList k m = false) ∧
      (10 < (mapInsert (GenerateJobId now st.jobCounter)
          (jobOfTemplate (GenerateJobId now st.jobCounter) tmpl) st.jobs).length →
        (CreateNewJob st now tmpl).jobs.length + 1 =
          (mapInsert (GenerateJobId now st.jobCounter)
            (jobOfTemplate (GenerateJobId now st.jobCounter) tmpl) st.jobs).length)) := by
  set jid := GenerateJobId now st.jobCounter with hjid
  set job := jobOfTemplate jid tmpl with hjob
  set ins := mapInsert jid job st.jobs with hins
  have hjobs : (CreateNewJob st now tmpl).jobs = if 10 < ins.length then eraseMin ins else ins := rfl
  have hinslen : ins.length ≤ st.jobs.length + 1 := by
    have h := mapInsert_length jid job st.jobs
    rw [← hins] at h
    rcases h with h | h <;> omega
  refine ⟨?_, rfl, ?_⟩
  · rw [hjobs]
    by_cases hc : 10 < ins.length
    · rw [if_pos hc]
      obtain ⟨kv, t, hins'⟩ : ∃ kv t, ins = kv :: t := by
        cases hcons : ins with
        | nil => rw [hcons] at hc; simp at hc
        | cons kv t => exact ⟨kv, t, rfl⟩
      obtain ⟨m, hm⟩ := hins' ▸ minKey_cons kv t
      have := eraseMin_length ins m (hins' ▸ hm)
      omega
    · rw [if_neg hc]
      omega
  · intro m hm
    constructor
    · intro k hk
      rw [hjobs] at hk
      have hk' : k ∈ ins.map Prod.fst := by
        by_cases hc : 10 < ins.length
        · rw [if_pos hc] at hk
          exact eraseMin_keys_subset ins k hk
        · rw [if_neg hc] at hk
          exact hk
      exact (minKey_spec ins m hm).2 k hk'
    · intro hc
      rw [hjobs, if_pos hc]
      exact eraseMin_length ins m hm

/-- Witness for the amended C3: creating a job on top of the eleven
rotations already performed (a 10-entry map). -/
theorem C3_history_bound_witness :
    (CreateNewJob rotatedState 100 tmpl0).jobs.length ≤ 10 ∧
    (CreateNewJob rotatedState 100 tmpl0).currentJob =
      some (jobOfTemplate (GenerateJobId 100 rotatedState.jobCounter) tmpl0) ∧
    (∀ m, minKey (mapInsert (GenerateJobId 100 rotatedState.jobCounter)
          (jobOfTemplate (GenerateJobId 100 rotatedState.jobCounter) tmpl0)
          rotatedState.jobs) = some m →
      (∀ k ∈ (CreateNewJob rotatedState 100 tmpl0).jobs.map Prod.fst,
        ltCharList k m = false) ∧
      (10 < (mapInsert (GenerateJobId 100 rotatedState.jobCounter)
          (jobOfTemplate (GenerateJobId 100 rotatedState.jobCounter) tmpl0)
          rotatedState.jobs).length →
        (CreateNewJob rotatedState 100 tmpl0).jobs.length + 1 =
          (mapInsert (GenerateJobId 100 rotatedState.jobCounter)
            (jobOfTemplate (GenerateJobId 100 rotatedState.jobCounter) tmpl0)
            rotatedState.jobs).length)) :=
  C3_history_bound rotatedState 100 tmpl0 (by decide)
